import Mathlib

/-!
Verification of the Morph.io streaming playback pipeline
(`sarpedon/player-processor.js` and `sarpedon/app.js`).

Shallow embedding conventions:
* JS numbers that carry audio samples or spectrogram magnitudes are
  modelled as rationals (`ℚ`); the code never performs any operation on
  them that distinguishes rationals from IEEE doubles in the claims below
  (the samples are moved, never combined; the colour transform is exact
  linear arithmetic plus clamping).
* Raw bytes are `Nat` values (each `< 256` where it matters); a decoded
  32-bit float is represented by its little-endian 32-bit pattern, since
  `new Float32Array(buffer)` only reinterprets bytes and the pipeline
  never computes with the float values.
* JS exceptions are modelled with an explicit error channel
  (`Except` / `Option JsError`).
-/

namespace Morph

/-! ## player-processor.js -/

/-- Embedding of the `port.onmessage` append (player-processor.js lines
12-17): `newBuf` is the old buffer followed by the incoming samples. -/
def appendBuf (buf incoming : List ℚ) : List ℚ :=
  buf ++ incoming

/-- Embedding of the underrun branch of `process` (lines 26-32): every
output plane is filled with `0.0`; `out` has `channels` planes of
`frames` samples each. -/
def silencePlanes (frames channels : Nat) : List (List ℚ) :=
  (List.range channels).map (fun _ => List.replicate frames (0 : ℚ))

/-- Embedding of the fill loop of `process` (lines 37-42): the running
index `bi` equals `f * channels + ch` when `out[ch][f]` is written, so
`out[ch][f] = buffer[f * channels + ch]`. -/
def deinterleave (frames channels : Nat) (buf : List ℚ) : List (List ℚ) :=
  (List.range channels).map (fun ch =>
    (List.range frames).map (fun f => buf.getD (f * channels + ch) 0))

/-- Embedding of `PlayerProcessor.process` (lines 22-51).  Returns the
output planes, the buffer after the call, and the boolean return value.
After the fill loop `bi = frames * channels`, and both arms of the
consume step (lines 45-49) coincide with `List.drop`. -/
def process (frames channels : Nat) (buf : List ℚ) :
    List (List ℚ) × List ℚ × Bool :=
  if buf.length < frames * channels then
    (silencePlanes frames channels, buf, true)
  else
    (deinterleave frames channels buf, buf.drop (frames * channels), true)

/-- The samples contained in a plane set, read back in interleaved order
(frame-major, channel-minor) — the order in which `process` reads the
buffer. -/
def interleaveOf (frames channels : Nat) (planes : List (List ℚ)) : List ℚ :=
  (List.range frames).flatMap (fun f =>
    (List.range channels).map (fun ch => (planes.getD ch []).getD f 0))

/-- One render tick viewed as a drain: the samples delivered to the
output planes (in interleaved order) and the buffer left behind. -/
def drainStep (frames channels : Nat) (buf : List ℚ) : List ℚ × List ℚ :=
  let r := process frames channels buf
  (interleaveOf frames channels r.1, r.2.1)

/-- Successive render ticks with per-tick frame counts `reqs`: the
concatenation of all delivered samples, and the final buffer. -/
def runDrains (channels : Nat) (reqs : List Nat) (buf : List ℚ) :
    List ℚ × List ℚ :=
  match reqs with
  | [] => ([], buf)
  | f :: rest =>
      let s := drainStep f channels buf
      let t := runDrains channels rest s.2
      (s.1 ++ t.1, t.2)

/-- Appending a sequence of batches to a buffer, one `port.onmessage`
event per batch. -/
def appendAll (batches : List (List ℚ)) (buf : List ℚ) : List ℚ :=
  batches.foldl appendBuf buf

/-! ## app.js — binary branch (chunk classification and ingest) -/

/-- Classification outcome of a binary chunk (spec §4.1). -/
inductive Classification where
  | RawPcm : Classification
  | Unsupported : Classification
deriving DecidableEq

/-- Embedding of the header string built at app.js lines 61-62:
`String.fromCharCode(b0) + String.fromCharCode(b1)`. -/
def headerOf (b0 b1 : Nat) : String :=
  String.mk [Char.ofNat b0, Char.ofNat b1]

/-- Embedding of the classifier (app.js lines 60-69): chunks of length
`≥ 2` whose first two bytes spell `"OP"` are unsupported Opus packets;
everything else falls through to the raw-PCM path. -/
def classify (bytes : List Nat) : Classification :=
  if 2 ≤ bytes.length then
    if headerOf (bytes.getD 0 0) (bytes.getD 1 0) = "OP" then
      Classification.Unsupported
    else Classification.RawPcm
  else Classification.RawPcm

/-- JS exception kinds that the modelled handlers can raise. -/
inductive JsError where
  | rangeError : JsError
  | typeError : JsError
  | syntaxError : JsError
deriving DecidableEq

/-- Little-endian 32-bit word from four bytes (byte 0 least
significant). -/
def leWord (b0 b1 b2 b3 : Nat) : Nat :=
  b0 + 256 * b1 + 65536 * b2 + 16777216 * b3

/-- The sequence of complete little-endian 32-bit patterns in a byte
sequence, in order; a trailing group of fewer than 4 bytes yields
nothing. -/
def decodeWords : List Nat → List Nat
  | b0 :: b1 :: b2 :: b3 :: rest => leWord b0 b1 b2 b3 :: decodeWords rest
  | _ => []

/-- Embedding of `new Float32Array(ab)` (app.js line 72) per ECMAScript
TypedArray semantics: if the buffer byte length is not a multiple of the
element size 4, a `RangeError` is thrown; otherwise the bytes are
reinterpreted, four at a time, little-endian. -/
def float32ArrayOfBytes (bytes : List Nat) : Except JsError (List Nat) :=
  if bytes.length % 4 = 0 then Except.ok (decodeWords bytes)
  else Except.error JsError.rangeError

/-- Embedding of the binary branch of `ws.onmessage` (app.js lines
56-75).  Result: `(warned, samples)` where `warned` records the
`console.warn` on the Opus path and `samples` are the float patterns
posted to the worklet (and hence appended to the Frame Buffer); a thrown
exception is surfaced on the error channel. -/
def handleBinary (bytes : List Nat) : Except JsError (Bool × List Nat) :=
  match classify bytes with
  | Classification.Unsupported => Except.ok (true, [])
  | Classification.RawPcm =>
      match float32ArrayOfBytes bytes with
      | Except.ok samples => Except.ok (false, samples)
      | Except.error e => Except.error e

/-! ## app.js — spectrogram sink and text branch -/

/-- Embedding of the colour transform at app.js line 97:
`Math.max(0, Math.min(255, (v + 80) * 3))`. -/
def colorOf (v : ℚ) : ℚ :=
  max 0 (min 255 ((v + 80) * 3))

/-- Embedding of `Math.floor((y / h) * rows)` (app.js line 93). -/
def rowOf (y h rows : Nat) : Nat :=
  (Int.floor (((y : ℚ) / (h : ℚ)) * (rows : ℚ))).toNat

/-- Embedding of `Math.floor((x / w) * cols)` (app.js line 95). -/
def colOf (x w cols : Nat) : Nat :=
  (Int.floor (((x : ℚ) / (w : ℚ)) * (cols : ℚ))).toNat

/-- The four values written for pixel `(x, y)` at app.js lines 96-102:
`R = c`, `G = 0`, `B = 255 - c`, `A = 255`. -/
def pixelRGBA (matrix : List (List ℚ)) (cols w h x y : Nat) : List ℚ :=
  let v := (matrix.getD (rowOf y h matrix.length) []).getD (colOf x w cols) 0
  let c := colorOf v
  [c, 0, 255 - c, 255]

/-- Embedding of the pixel loop of `drawSpectrogram` (app.js lines
91-103): for each `y` then each `x`, four values are written at index
`(y * w + x) * 4`; generating them in the same order produces the full
`ImageData` payload.  The byte quantisation that the canvas
`Uint8ClampedArray` applies on store is a property of the external
canvas collaborator and is not modelled. -/
def drawSpectrogramData (matrix : List (List ℚ)) (w h : Nat) : List ℚ :=
  let cols := (matrix.getD 0 []).length
  (List.range h).flatMap (fun y =>
    (List.range w).flatMap (fun x => pixelRGBA matrix cols w h x y))

/-- Observable canvas operations performed by `drawSpectrogram`. -/
inductive CanvasOp where
  | clear : CanvasOp
  | putImage : List ℚ → CanvasOp
deriving DecidableEq

/-- Embedding of `drawSpectrogram` (app.js lines 88-104) as a trace of
canvas operations plus an error channel.  `ctx.clearRect` runs first;
then `matrix[0].length` faults with a `TypeError` when the matrix has
zero rows (`matrix[0]` is `undefined`); otherwise the image is built and
written in one `putImageData` call. -/
def drawSpectrogramT (w h : Nat) (matrix : List (List ℚ)) :
    List CanvasOp × Option JsError :=
  if matrix.isEmpty then ([CanvasOp.clear], some JsError.typeError)
  else ([CanvasOp.clear, CanvasOp.putImage (drawSpectrogramData matrix w h)],
        none)

/-- Parse result of a text message: `JSON.parse` failure, a spectrogram
message, or any other shape. -/
inductive TextMsg where
  | spectrogram : List (List ℚ) → TextMsg
  | other : TextMsg

/-- The body of the `try` block in the text branch of `ws.onmessage`
(app.js lines 44-54), before the `catch`: a parse failure raises
`SyntaxError`; a spectrogram message runs `drawSpectrogram` (whose fault,
if any, propagates out of the body); other messages do nothing.  The
input is the parse outcome (`none` = `JSON.parse` threw). -/
def handleTextBody (w h : Nat) (p : Option TextMsg) :
    List CanvasOp × Option JsError :=
  match p with
  | none => ([], some JsError.syntaxError)
  | some TextMsg.other => ([], none)
  | some (TextMsg.spectrogram m) => drawSpectrogramT w h m

/-- Embedding of `catch (e) { /* ignore */ }`: the canvas operations
already performed stand; the exception is swallowed. -/
def catchIgnore (r : List CanvasOp × Option JsError) :
    List CanvasOp × Option JsError :=
  (r.1, none)

/-- The whole text branch of `ws.onmessage`: the `try` body wrapped in
the ignoring `catch`. -/
def handleText (w h : Nat) (p : Option TextMsg) :
    List CanvasOp × Option JsError :=
  catchIgnore (handleTextBody w h p)

/-! ## Helper lemmas about the processor embedding -/

/-- Reading consecutive buffer positions `o, o+1, ..., o+k-1` with `getD`
recovers the slice `(l.drop o).take k` when the range is in bounds. -/
theorem getD_range_map (k : Nat) : ∀ (o : Nat) (l : List ℚ), o + k ≤ l.length →
    (List.range k).map (fun i => l.getD (o + i) 0) = (l.drop o).take k := by
  induction k with
  | zero => intro o l _; simp
  | succ k ih =>
      intro o l hlen
      have ho : o < l.length := by omega
      have h1 : ((fun i => l.getD (o + i) 0) ∘ Nat.succ) =
          fun i => l.getD ((o + 1) + i) 0 := by
        funext i
        simp only [Function.comp]
        congr 1
        omega
      rw [List.range_succ_eq_map, List.map_cons, List.map_map, h1,
        ih (o + 1) l (by omega), List.drop_eq_getElem_cons ho, List.take_succ_cons]
      simp [List.getElem?_eq_getElem ho]

/-- Reading the interleaved positions frame by frame, starting at offset
`o`, recovers the next `f * channels` buffered samples. -/
theorem interleave_aux (channels : Nat) (f : Nat) : ∀ (o : Nat) (buf : List ℚ),
    o + f * channels ≤ buf.length →
    (List.range f).flatMap (fun f0 =>
        (List.range channels).map (fun ch => buf.getD (o + (f0 * channels + ch)) 0)) =
      (buf.drop o).take (f * channels) := by
  induction f with
  | zero => intro o buf _; simp
  | succ f ih =>
      intro o buf hlen
      have hexp : (f + 1) * channels = f * channels + channels := by ring
      simp only [List.range_succ, List.flatMap_append, List.flatMap_cons,
        List.flatMap_nil, List.append_nil]
      have hblock : (List.range channels).map
          (fun ch => buf.getD (o + (f * channels + ch)) 0) =
          (buf.drop (o + f * channels)).take channels := by
        have hb := getD_range_map channels (o + f * channels) buf (by omega)
        rw [← hb]
        apply List.map_congr_left
        intro a _
        congr 1
        omega
      rw [hblock, ih o buf (by omega), hexp, List.take_add, List.drop_drop]

/-- Looking up plane `ch`, frame `f` of the de-interleaved output gives
back the buffered sample at interleaved index `f * channels + ch`. -/
theorem getD_deinterleave (frames channels : Nat) (buf : List ℚ) (f ch : Nat)
    (hf : f < frames) (hch : ch < channels) :
    ((deinterleave frames channels buf).getD ch []).getD f 0 =
      buf.getD (f * channels + ch) 0 := by
  have hplane : (deinterleave frames channels buf).getD ch [] =
      (List.range frames).map (fun f0 => buf.getD (f0 * channels + ch) 0) := by
    unfold deinterleave
    rw [List.getD_eq_getElem?_getD, List.getElem?_map, List.getElem?_range hch]
    rfl
  rw [hplane, List.getD_eq_getElem?_getD, List.getElem?_map, List.getElem?_range hf]
  rfl

/-- Re-interleaving the planes produced by a sufficient `process` call
recovers exactly the consumed prefix of the buffer. -/
theorem interleave_deinterleave (frames channels : Nat) (buf : List ℚ)
    (h : frames * channels ≤ buf.length) :
    interleaveOf frames channels (deinterleave frames channels buf) =
      buf.take (frames * channels) := by
  unfold interleaveOf
  have hcong : (List.range frames).flatMap (fun f =>
        (List.range channels).map (fun ch =>
          ((deinterleave frames channels buf).getD ch []).getD f 0)) =
      (List.range frames).flatMap (fun f =>
        (List.range channels).map (fun ch => buf.getD (0 + (f * channels + ch)) 0)) := by
    rw [List.flatMap_def, List.flatMap_def]
    congr 1
    apply List.map_congr_left
    intro f hfmem
    apply List.map_congr_left
    intro ch hchmem
    rw [List.mem_range] at hfmem hchmem
    rw [getD_deinterleave frames channels buf f ch hfmem hchmem]
    congr 1
    omega
  rw [hcong, interleave_aux channels frames 0 buf (by omega)]
  simp

/-- A sufficient drain step returns the consumed prefix and keeps the
rest of the buffer. -/
theorem drainStep_sufficient (frames channels : Nat) (buf : List ℚ)
    (h : frames * channels ≤ buf.length) :
    drainStep frames channels buf =
      (buf.take (frames * channels), buf.drop (frames * channels)) := by
  unfold drainStep process
  rw [if_neg (by omega)]
  simp only
  rw [interleave_deinterleave frames channels buf h]

/-- Draining a buffer with requests whose total sample count matches the
buffer length returns the whole buffer in order and empties it. -/
theorem runDrains_exact (channels : Nat) : ∀ (reqs : List Nat) (buf : List ℚ),
    reqs.sum * channels = buf.length → runDrains channels reqs buf = (buf, []) := by
  intro reqs
  induction reqs with
  | nil =>
      intro buf hlen
      simp only [List.sum_nil, Nat.zero_mul] at hlen
      rw [List.eq_nil_of_length_eq_zero hlen.symm]
      rfl
  | cons f rest ih =>
      intro buf hlen
      simp only [List.sum_cons, Nat.add_mul] at hlen
      have hsuff : f * channels ≤ buf.length := by omega
      have hdrop : rest.sum * channels = (buf.drop (f * channels)).length := by
        simp only [List.length_drop]
        omega
      simp only [runDrains]
      rw [drainStep_sufficient f channels buf hsuff]
      show (buf.take (f * channels) ++
              (runDrains channels rest (buf.drop (f * channels))).1,
            (runDrains channels rest (buf.drop (f * channels))).2) = (buf, [])
      rw [ih (buf.drop (f * channels)) hdrop]
      simp [List.take_append_drop]

/-- Appending batches one message at a time prepends the current buffer
to their concatenation. -/
theorem appendAll_eq (batches : List (List ℚ)) : ∀ (buf : List ℚ),
    appendAll batches buf = buf ++ batches.flatten := by
  induction batches with
  | nil => intro buf; simp [appendAll]
  | cons b rest ih =>
      intro buf
      simp only [appendAll, List.foldl_cons, List.flatten_cons] at *
      rw [ih (appendBuf buf b)]
      simp [appendBuf]

/-! ## Claims about player-processor.js -/

/-- C1: on a render tick where the buffered sample count is strictly
less than `frames * channels`, `process` returns exactly `channels`
planes of `frames` samples each with every value `0.0`, and leaves the
buffer unchanged (no samples consumed). -/
theorem claim_C1 (frames channels : Nat) (buf : List ℚ)
    (h : buf.length < frames * channels) :
    (process frames channels buf).1.length = channels ∧
    (∀ p ∈ (process frames channels buf).1, p.length = frames ∧ ∀ v ∈ p, v = 0) ∧
    (process frames channels buf).2.1 = buf := by
  simp only [process, if_pos h, silencePlanes]
  refine ⟨by simp, ?_, by trivial⟩
  intro p hp
  rw [List.mem_map] at hp
  obtain ⟨a, _, rfl⟩ := hp
  exact ⟨by simp, fun v hv => List.eq_of_mem_replicate hv⟩

theorem claim_C1_witness :
    ([(1 : ℚ), 2, 3].length < 2 * 2) ∧
    ((process 2 2 [(1 : ℚ), 2, 3]).1.length = 2 ∧
     (∀ p ∈ (process 2 2 [(1 : ℚ), 2, 3]).1, p.length = 2 ∧ ∀ v ∈ p, v = 0) ∧
     (process 2 2 [(1 : ℚ), 2, 3]).2.1 = [1, 2, 3]) :=
  ⟨by decide, claim_C1 2 2 [1, 2, 3] (by decide)⟩

/-- C2: appending batches B1...Bn to the empty buffer (one message per
batch) and running successive drains whose total sample count matches
the appended total delivers exactly the concatenation B1‖...‖Bn in
order, leaving the buffer empty (FIFO, no reordering within or across
chunks). -/
theorem claim_C2 (channels : Nat) (reqs : List Nat) (batches : List (List ℚ))
    (h : reqs.sum * channels = (appendAll batches []).length) :
    runDrains channels reqs (appendAll batches []) = (batches.flatten, []) := by
  rw [appendAll_eq batches [], List.nil_append] at h ⊢
  exact runDrains_exact channels reqs batches.flatten h

theorem claim_C2_witness :
    ([1, 1].sum * 2 = (appendAll [[(1 : ℚ), 2], [3, 4]] []).length) ∧
    runDrains 2 [1, 1] (appendAll [[(1 : ℚ), 2], [3, 4]] []) =
      ([[(1 : ℚ), 2], [3, 4]].flatten, []) :=
  ⟨by decide, claim_C2 2 [1, 1] [[1, 2], [3, 4]] (by decide)⟩

/-- C3: when at least `frames * channels` samples are buffered, the
drain de-interleaves so that plane `ch` at frame `f` receives the
buffered sample at interleaved index `f * channels + ch`; in particular
with two channels, draining two frames of `[1, 2, 3, 4]` puts `[1, 3]`
on plane 0 and `[2, 4]` on plane 1. -/
theorem claim_C3 (frames channels : Nat) (buf : List ℚ) (f ch : Nat)
    (hsuff : frames * channels ≤ buf.length) (hf : f < frames) (hch : ch < channels) :
    (((process frames channels buf).1.getD ch []).getD f 0 =
        buf.getD (f * channels + ch) 0) ∧
    process 2 2 [1, 2, 3, 4] = ([[1, 3], [2, 4]], [], true) := by
  constructor
  · have hnot : ¬ buf.length < frames * channels := by omega
    simp only [process, if_neg hnot]
    exact getD_deinterleave frames channels buf f ch hf hch
  · decide

theorem claim_C3_witness :
    (2 * 2 ≤ [(10 : ℚ), 20, 30, 40].length ∧ 1 < 2 ∧ 0 < 2) ∧
    ((((process 2 2 [(10 : ℚ), 20, 30, 40]).1.getD 0 []).getD 1 0 =
        [(10 : ℚ), 20, 30, 40].getD (1 * 2 + 0) 0) ∧
     process 2 2 [1, 2, 3, 4] = ([[1, 3], [2, 4]], [], true)) :=
  ⟨by decide, claim_C3 2 2 [10, 20, 30, 40] 1 0 (by decide) (by decide) (by decide)⟩

/-- C4: appending exactly `frames * channels` samples to an empty
buffer and then draining one tick of `frames` frames over `channels`
channels delivers exactly those samples (no silence) and leaves the
buffer empty. -/
theorem claim_C4 (frames channels : Nat) (samples : List ℚ)
    (h : samples.length = frames * channels) :
    drainStep frames channels (appendBuf [] samples) = (samples, []) := by
  have hb : appendBuf [] samples = samples := by simp [appendBuf]
  rw [hb, drainStep_sufficient frames channels samples (by omega), ← h,
    List.take_length, List.drop_length]

theorem claim_C4_witness :
    ([(1 : ℚ), 2, 3, 4].length = 2 * 2) ∧
    drainStep 2 2 (appendBuf [] [(1 : ℚ), 2, 3, 4]) = ([(1 : ℚ), 2, 3, 4], []) :=
  ⟨by decide, claim_C4 2 2 [1, 2, 3, 4] (by decide)⟩

/-- C7: every invocation of `process` returns `true` and produces a
well-formed plane set of `channels` planes with `frames` samples each,
whatever the buffer contents: underrun degrades to silence instead of
failing, and the embedding of `process` is a total function with no
exception path. -/
theorem claim_C7 (frames channels : Nat) (buf : List ℚ) :
    (process frames channels buf).2.2 = true ∧
    (process frames channels buf).1.length = channels ∧
    ∀ p ∈ (process frames channels buf).1, p.length = frames := by
  by_cases h : buf.length < frames * channels
  · simp only [process, if_pos h, silencePlanes]
    refine ⟨by trivial, by simp, ?_⟩
    intro p hp
    rw [List.mem_map] at hp
    obtain ⟨a, _, rfl⟩ := hp
    simp
  · simp only [process, if_neg h, deinterleave]
    refine ⟨by trivial, by simp, ?_⟩
    intro p hp
    rw [List.mem_map] at hp
    obtain ⟨a, _, rfl⟩ := hp
    simp

/-- C9: buffer-length accounting: an append grows the length by exactly
the incoming count and preserves all previously buffered samples; an
insufficient drain leaves the buffer identical; a sufficient drain
removes exactly `frames * channels` samples from the front, keeping the
rest in order.  (Lengths are `Nat`, hence never negative.) -/
theorem claim_C9 (buf incoming : List ℚ) (frames channels : Nat) :
    (appendBuf buf incoming).length = buf.length + incoming.length ∧
    (appendBuf buf incoming).take buf.length = buf ∧
    (buf.length < frames * channels → (process frames channels buf).2.1 = buf) ∧
    (frames * channels ≤ buf.length →
       (process frames channels buf).2.1 = buf.drop (frames * channels) ∧
       (process frames channels buf).2.1.length + frames * channels = buf.length) := by
  refine ⟨by simp [appendBuf], List.take_left buf incoming, ?_, ?_⟩
  · intro h
    simp [process, if_pos h]
  · intro h
    have hnot : ¬ buf.length < frames * channels := by omega
    constructor
    · simp [process, if_neg hnot]
    · simp only [process, if_neg hnot]
      simp only [List.length_drop]
      omega

theorem claim_C9_witness :
    ((appendBuf [(1 : ℚ), 2] [3]).length = [(1 : ℚ), 2].length + [(3 : ℚ)].length) ∧
    ((process 2 2 [(5 : ℚ), 6, 7]).2.1 = [5, 6, 7]) ∧
    ((process 1 2 [(5 : ℚ), 6, 7]).2.1 = [(5 : ℚ), 6, 7].drop (1 * 2)) :=
  ⟨(claim_C9 [1, 2] [3] 1 2).1,
   (claim_C9 [5, 6, 7] [] 2 2).2.2.1 (by decide),
   ((claim_C9 [5, 6, 7] [] 1 2).2.2.2 (by decide)).1⟩

/-! ## Helper lemmas about the app.js embedding -/

/-- A byte sequence decodes to one word per full group of four bytes;
integer division drops the incomplete tail group. -/
theorem decodeWords_length : ∀ (bytes : List Nat),
    (decodeWords bytes).length = bytes.length / 4
  | b0 :: b1 :: b2 :: b3 :: rest => by
      have ih := decodeWords_length rest
      simp only [decodeWords, List.length_cons]
      omega
  | [] => rfl
  | [_] => by simp [decodeWords]
  | [_, _] => by simp [decodeWords]
  | [_, _, _] => by simp [decodeWords]

/-- Length of a concatenation of equal-sized blocks indexed by
`List.range`. -/
theorem flatMap_blocks_length (g : Nat → List ℚ) (n s : Nat)
    (hlen : ∀ j, (g j).length = s) :
    ((List.range n).flatMap g).length = n * s := by
  induction n with
  | zero => simp
  | succ n ih =>
      rw [List.range_succ, List.flatMap_append, List.length_append, ih]
      simp only [List.flatMap_cons, List.flatMap_nil, List.append_nil, hlen n]
      ring

/-- Position `i * s + k` of a concatenation of equal-sized blocks lands
at offset `k` of block `i`. -/
theorem flatMap_blocks_getD (g : Nat → List ℚ) (s : Nat)
    (hlen : ∀ j, (g j).length = s) :
    ∀ (n i k : Nat), i < n → k < s →
    ((List.range n).flatMap g).getD (i * s + k) 0 = (g i).getD k 0 := by
  intro n
  induction n with
  | zero => intro i k hi _; omega
  | succ n ih =>
      intro i k hi hk
      rw [List.range_succ, List.flatMap_append]
      by_cases hin : i < n
      · have hbound : i * s + k < ((List.range n).flatMap g).length := by
          rw [flatMap_blocks_length g n s hlen]
          have h1 : (i + 1) * s ≤ n * s := Nat.mul_le_mul_right s (by omega)
          have h2 : (i + 1) * s = i * s + s := by ring
          omega
        rw [List.getD_append _ _ _ _ hbound]
        exact ih i k hin hk
      · have hieq : i = n := by omega
        subst hieq
        have hblen : ((List.range i).flatMap g).length = i * s :=
          flatMap_blocks_length g i s hlen
        rw [List.getD_append_right _ _ _ _ (by omega)]
        rw [hblen]
        have hsub : i * s + k - i * s = k := by omega
        rw [hsub]
        simp only [List.flatMap_cons, List.flatMap_nil, List.append_nil]

/-- Nearest-neighbour index: for `y < h` and `0 < rows`, the value
`Math.floor((y / h) * rows)` is a valid row index. -/
theorem floor_ratio_lt (y h rows : Nat) (hy : y < h) (hrows : 0 < rows) :
    (Int.floor (((y : ℚ) / (h : ℚ)) * (rows : ℚ))).toNat < rows := by
  have hh : (0 : ℚ) < (h : ℚ) := by
    have hh0 : 0 < h := by omega
    exact_mod_cast hh0
  have hnn : (0 : ℚ) ≤ ((y : ℚ) / (h : ℚ)) * (rows : ℚ) := by positivity
  have hlt : ((y : ℚ) / (h : ℚ)) * (rows : ℚ) < (rows : ℚ) := by
    have h1 : (y : ℚ) / (h : ℚ) < 1 := by
      rw [div_lt_one hh]
      exact_mod_cast hy
    have h2 : (0 : ℚ) < (rows : ℚ) := by exact_mod_cast hrows
    calc ((y : ℚ) / (h : ℚ)) * (rows : ℚ) < 1 * (rows : ℚ) :=
          mul_lt_mul_of_pos_right h1 h2
      _ = (rows : ℚ) := one_mul _
  have hfl : Int.floor (((y : ℚ) / (h : ℚ)) * (rows : ℚ)) < (rows : ℤ) := by
    rw [Int.floor_lt]
    push_cast
    exact hlt
  have hfl0 : 0 ≤ Int.floor (((y : ℚ) / (h : ℚ)) * (rows : ℚ)) :=
    Int.floor_nonneg.mpr hnn
  omega

/-! ## Claims about app.js -/

/-- C5 counterexample: a 1-byte chunk is classified raw PCM, but
`new Float32Array(ab)` then throws a `RangeError`; the handler errors
instead of accepting the chunk with zero samples, so ingest of a
non-multiple-of-4 chunk IS an error, contrary to the claim. -/
theorem claim_C5_counterexample :
    handleBinary [0] = Except.error JsError.rangeError ∧
    handleBinary [0] ≠ Except.ok (false, []) := by
  constructor
  · rfl
  · intro hcontra
    have h1 : handleBinary [0] = Except.error JsError.rangeError := rfl
    rw [h1] at hcontra
    exact Except.noConfusion hcontra

/-- C5 (amended): for a chunk classified raw PCM, if the byte length is
a multiple of 4 the complete little-endian 32-bit floats (one per 4-byte
group, possibly zero of them) are appended in order; if the byte length
is not a multiple of 4 the `Float32Array` constructor throws a
`RangeError` and nothing is appended — the chunk is rejected whole, not
truncated. -/
theorem claim_C5 (bytes : List Nat)
    (hpcm : classify bytes = Classification.RawPcm) :
    (bytes.length % 4 = 0 →
       handleBinary bytes = Except.ok (false, decodeWords bytes) ∧
       (decodeWords bytes).length = bytes.length / 4) ∧
    (bytes.length % 4 ≠ 0 →
       handleBinary bytes = Except.error JsError.rangeError) := by
  constructor
  · intro h4
    simp only [handleBinary, hpcm, float32ArrayOfBytes, if_pos h4]
    exact ⟨by trivial, decodeWords_length bytes⟩
  · intro h4
    simp only [handleBinary, hpcm, float32ArrayOfBytes, if_neg h4]

theorem claim_C5_witness :
    (classify [0, 0, 128, 63] = Classification.RawPcm ∧
     [0, 0, 128, 63].length % 4 = 0) ∧
    (handleBinary [0, 0, 128, 63] = Except.ok (false, decodeWords [0, 0, 128, 63]) ∧
     (decodeWords [0, 0, 128, 63]).length = [0, 0, 128, 63].length / 4) :=
  ⟨⟨by decide, by decide⟩, (claim_C5 [0, 0, 128, 63] (by decide)).1 (by decide)⟩

/-- C6: a binary chunk of length at least 2 whose first two bytes are
`"OP"` (79, 80) is classified unsupported whatever follows; the handler
surfaces the warning and appends nothing (Frame Buffer unchanged); any
chunk of length 0 or 1 is classified raw PCM. -/
theorem claim_C6 (bytes : List Nat) (h2 : 2 ≤ bytes.length)
    (h0 : bytes.getD 0 0 = 79) (h1 : bytes.getD 1 0 = 80) :
    classify bytes = Classification.Unsupported ∧
    handleBinary bytes = Except.ok (true, []) ∧
    (∀ c : List Nat, c.length = 0 ∨ c.length = 1 →
       classify c = Classification.RawPcm) := by
  have hcl : classify bytes = Classification.Unsupported := by
    unfold classify
    rw [if_pos h2, h0, h1, if_pos (by decide)]
  refine ⟨hcl, ?_, ?_⟩
  · simp only [handleBinary, hcl]
  · intro c hc
    unfold classify
    rw [if_neg (by omega)]

theorem claim_C6_witness :
    (2 ≤ [79, 80, 123].length ∧ [79, 80, 123].getD 0 0 = 79 ∧
     [79, 80, 123].getD 1 0 = 80) ∧
    (classify [79, 80, 123] = Classification.Unsupported ∧
     handleBinary [79, 80, 123] = Except.ok (true, []) ∧
     (∀ c : List Nat, c.length = 0 ∨ c.length = 1 →
        classify c = Classification.RawPcm)) :=
  ⟨⟨by decide, by decide, by decide⟩,
   claim_C6 [79, 80, 123] (by decide) (by decide) (by decide)⟩

/-- C8: the spectrogram sink maps pixel `(x, y)` to matrix row
`floor((y / h) * rows)` and column `floor((x / w) * cols)` (both valid
indices when the matrix is non-degenerate), writes
`RGBA = (c, 0, 255 - c, 255)` with `c = clamp((v + 80) * 3, 0, 255)` at
offset `(y * w + x) * 4`, and fills the whole `w * h * 4` pixel buffer
in one pass. -/
theorem claim_C8 (matrix : List (List ℚ)) (w h x y : Nat)
    (hx : x < w) (hy : y < h) :
    (drawSpectrogramData matrix w h).length = w * h * 4 ∧
    ((drawSpectrogramData matrix w h).getD ((y * w + x) * 4) 0 =
       colorOf ((matrix.getD (rowOf y h matrix.length) []).getD
         (colOf x w ((matrix.getD 0 []).length)) 0)) ∧
    ((drawSpectrogramData matrix w h).getD ((y * w + x) * 4 + 1) 0 = 0) ∧
    ((drawSpectrogramData matrix w h).getD ((y * w + x) * 4 + 2) 0 =
       255 - colorOf ((matrix.getD (rowOf y h matrix.length) []).getD
         (colOf x w ((matrix.getD 0 []).length)) 0)) ∧
    ((drawSpectrogramData matrix w h).getD ((y * w + x) * 4 + 3) 0 = 255) ∧
    (0 < matrix.length → rowOf y h matrix.length < matrix.length) ∧
    (0 < (matrix.getD 0 []).length →
       colOf x w ((matrix.getD 0 []).length) < (matrix.getD 0 []).length) := by
  have hGlen : ∀ j, ((List.range w).flatMap
      (fun x0 => pixelRGBA matrix ((matrix.getD 0 []).length) w h x0 j)).length = w * 4 :=
    fun j => flatMap_blocks_length
      (fun x0 => pixelRGBA matrix ((matrix.getD 0 []).length) w h x0 j) w 4
      (fun _ => rfl)
  have hpix : ∀ kk : Nat, kk < 4 →
      (drawSpectrogramData matrix w h).getD ((y * w + x) * 4 + kk) 0 =
      (pixelRGBA matrix ((matrix.getD 0 []).length) w h x y).getD kk 0 := by
    intro kk hkk
    have hidx : (y * w + x) * 4 + kk = y * (w * 4) + (x * 4 + kk) := by ring
    rw [hidx]
    show ((List.range h).flatMap (fun y0 => (List.range w).flatMap
        (fun x0 => pixelRGBA matrix ((matrix.getD 0 []).length) w h x0 y0))).getD
          (y * (w * 4) + (x * 4 + kk)) 0 =
        (pixelRGBA matrix ((matrix.getD 0 []).length) w h x y).getD kk 0
    rw [flatMap_blocks_getD _ (w * 4) hGlen h y (x * 4 + kk) hy (by omega)]
    exact flatMap_blocks_getD
      (fun x0 => pixelRGBA matrix ((matrix.getD 0 []).length) w h x0 y) 4
      (fun _ => rfl) w x kk hx hkk
  have h0 : (y * w + x) * 4 = (y * w + x) * 4 + 0 := by omega
  refine ⟨?_, ?_, ?_, ?_, ?_, ?_, ?_⟩
  · show ((List.range h).flatMap (fun y0 => (List.range w).flatMap
        (fun x0 => pixelRGBA matrix ((matrix.getD 0 []).length) w h x0 y0))).length =
      w * h * 4
    rw [flatMap_blocks_length _ h (w * 4) hGlen]
    ring
  · rw [h0, hpix 0 (by omega)]
    rfl
  · rw [hpix 1 (by omega)]
    rfl
  · rw [hpix 2 (by omega)]
    rfl
  · rw [hpix 3 (by omega)]
    rfl
  · intro hrows
    exact floor_ratio_lt y h matrix.length hy hrows
  · intro hcols
    exact floor_ratio_lt x w ((matrix.getD 0 []).length) hx hcols

theorem claim_C8_witness :
    ((0 : Nat) < 1 ∧ (0 : Nat) < 1) ∧
    ((drawSpectrogramData [[(0 : ℚ)]] 1 1).length = 1 * 1 * 4 ∧
     ((drawSpectrogramData [[(0 : ℚ)]] 1 1).getD ((0 * 1 + 0) * 4) 0 =
        colorOf (([[(0 : ℚ)]].getD (rowOf 0 1 [[(0 : ℚ)]].length) []).getD
          (colOf 0 1 (([[(0 : ℚ)]].getD 0 []).length)) 0)) ∧
     ((drawSpectrogramData [[(0 : ℚ)]] 1 1).getD ((0 * 1 + 0) * 4 + 1) 0 = 0) ∧
     ((drawSpectrogramData [[(0 : ℚ)]] 1 1).getD ((0 * 1 + 0) * 4 + 2) 0 =
        255 - colorOf (([[(0 : ℚ)]].getD (rowOf 0 1 [[(0 : ℚ)]].length) []).getD
          (colOf 0 1 (([[(0 : ℚ)]].getD 0 []).length)) 0)) ∧
     ((drawSpectrogramData [[(0 : ℚ)]] 1 1).getD ((0 * 1 + 0) * 4 + 3) 0 = 255) ∧
     (0 < [[(0 : ℚ)]].length → rowOf 0 1 [[(0 : ℚ)]].length < [[(0 : ℚ)]].length) ∧
     (0 < ([[(0 : ℚ)]].getD 0 []).length →
        colOf 0 1 (([[(0 : ℚ)]].getD 0 []).length) < ([[(0 : ℚ)]].getD 0 []).length)) :=
  ⟨⟨by decide, by decide⟩, claim_C8 [[0]] 1 1 0 0 (by decide) (by decide)⟩

/-- C10: the text branch never propagates an exception: the catch
swallows any parse failure or drawing fault while preserving the canvas
operations already performed; in particular a spectrogram message whose
matrix has zero rows faults with a `TypeError` inside the body, but only
after the canvas has been cleared, and a parse failure raises (and the
catch absorbs) a `SyntaxError`. -/
theorem claim_C10 (w h : Nat) (p : Option TextMsg) :
    (handleText w h p).2 = none ∧
    (handleText w h p).1 = (handleTextBody w h p).1 ∧
    handleTextBody w h (some (TextMsg.spectrogram [])) =
      ([CanvasOp.clear], some JsError.typeError) ∧
    handleTextBody w h none = ([], some JsError.syntaxError) :=
  ⟨rfl, rfl, rfl, rfl⟩

end Morph
